import Mathlib

/-!
Verification of the `xmlstore` typed-store core (`src/xmlstore/xmlstore.py`)
against its natural-language specification.

This file shallowly embeds the data model and operations of `xmlstore.py`:
pure fragments become Lean functions, the mutable node state becomes explicit
state passing, XML DOM value nodes become `Option`-valued slots holding the
typed value they would load to.  Typed scalar values (module `datatypes`,
which the spec places out of scope and describes only by its generic
parse/compare contract) are an abstract type `V` with decidable equality;
a value node that exists and loads value `v` is modelled as `some v`.
-/

namespace XmlStore

/-! ### Interface layer: `TypedStoreInterface.getChildCount` / `getChildren`
(`xmlstore.py` lines 365-418).

A live node, as far as interface traversal is concerned, carries its `visible`
flag, its `grouponly` attribute (a `;`-separated set in the source, here the
list of its entries) and its children. -/

/-- A node of the live value tree, restricted to the fields that interface
traversal (`getChildCount`/`getChildren`) reads: the `visible` flag set by
`updateVisibility`, the `grouponly` entries from the schema, and children. -/
inductive ITree where
  | node (visible : Bool) (grouponly : List String) (children : List ITree)

/-- Visibility flag of a node. -/
def ITree.visible : ITree → Bool
  | .node v _ _ => v

/-- `grouponly` entries of a node. -/
def ITree.grouponly : ITree → List String
  | .node _ g _ => g

/-- Children of a node. -/
def ITree.children : ITree → List ITree
  | .node _ _ cs => cs

/-- Configuration of a `TypedStoreInterface` (constructor arguments
`showhidden`, `omitgroupers`, `interfacetype`). -/
structure Interface where
  showhidden : Bool
  omitgroupers : Bool
  interfacetype : String

/-- `TypedStoreInterface.isGrouper`:
`self.omitgroupers and ('True' in node.grouponly or self.interfacetype in node.grouponly)`. -/
def Interface.isGrouper (iface : Interface) (node : ITree) : Bool :=
  iface.omitgroupers && (node.grouponly.contains "True" || node.grouponly.contains iface.interfacetype)

/-- `TypedStoreInterface.getChildCount`: counts children that are visible (or
shown anyway under `showhidden`), descending transparently through groupers. -/
def Interface.getChildCount (iface : Interface) (node : ITree) : Nat :=
  (node.children.attach.map (fun c =>
    if c.1.visible || iface.showhidden then
      if iface.isGrouper c.1 then iface.getChildCount c.1 else 1
    else 0)).sum
termination_by node
decreasing_by
  cases node with
  | node v g cs =>
    have : sizeOf c.1 < sizeOf cs := List.sizeOf_lt_of_mem (by simpa [ITree.children] using c.2)
    simp only [ITree.node.sizeOf_spec]
    omega

/-- `TypedStoreInterface.getChildren`: the list of children that are visible
(or shown anyway under `showhidden`), descending transparently through
groupers. -/
def Interface.getChildren (iface : Interface) (node : ITree) : List ITree :=
  (node.children.attach.map (fun c =>
    if c.1.visible || iface.showhidden then
      if iface.isGrouper c.1 then iface.getChildren c.1 else [c.1]
    else [])).flatten
termination_by node
decreasing_by
  cases node with
  | node v g cs =>
    have : sizeOf c.1 < sizeOf cs := List.sizeOf_lt_of_mem (by simpa [ITree.children] using c.2)
    simp only [ITree.node.sizeOf_spec]
    omega

/-! ### Node value access: `Node.getValue` / `Node.setValue` / `Node.clearValue`
(`xmlstore.py` lines 698-759 and 761-794).

The typed scalar values handled by the out-of-scope `datatypes` module are an
abstract type `V`.  A value node (`self.valuenode`) that exists and loads to
the typed value `v` is modelled as `some v`; an absent value node as `none`.
`value.save` is modelled from the spec (the `datatypes` sources are not part
of the repository core): it writes the typed value into the value node - so a
subsequent load returns it - and reports that a change was made (`setValue`
only calls it after establishing that the proposed value differs from the
current one). -/

/-- The slice of a live `Node`'s state that value access reads and writes. -/
structure NodeV (V : Type) where
  /-- `self.valuenode`, as the typed value it loads to. -/
  valuenode : Option V
  /-- Whether `self.parent is None` (the node is the tree root). -/
  isRoot : Bool
  /-- `Node.isReadOnly()`: the template carries the `readonly` attribute. -/
  readonly : Bool
  /-- `Node.canHaveClones()`: the template's `maxOccurs` is neither absent nor `1`. -/
  canHaveClones : Bool
  /-- `Node.getDefaultValue()`: the value of the structurally-mapped node in
  the default store, `none` when there is no default store or no mapped value. -/
  defaultValue : Option V

/-- The store as seen from a mutating node: the attached interfaces, each
modelled by its `onBeforeChange` verdict on a proposed new value (`none`
encodes the `None` proposal of `clearValue`).  An interface without a
registered `beforeChange` handler always answers `true`. -/
structure Controller (V : Type) where
  interfaces : List (Option V → Bool)

/-- `TypedStore.onBeforeChange` (lines 2487-2493): asks every attached
interface in turn and denies the change as soon as one interface denies it. -/
def Controller.onBeforeChange {V : Type} (c : Controller V) (newvalue : Option V) : Bool :=
  c.interfaces.all (fun f => f newvalue)

/-- Observable outcome of a value mutation: the node's new state, the
`onBeforeChange` consultations made, and the `onChange(self, feature)`
notifications emitted. -/
structure MutationOutcome (V : Type) where
  node : NodeV V
  vetoAsked : List (Option V)
  changeEvents : List String

/-- `Node.clearValue` with `recursive=False` (the child-clearing loop is not
entered, so `cleared` stays `True`): return `True` if the value node is already
absent; fail without consulting anyone on a respected read-only node or on the
root; for a node that must occur exactly once, ask the interfaces to approve
clearing and, if approved, remove the value node and emit `onChange`. -/
def NodeV.clearValue {V : Type} (ctrl : Controller V) (n : NodeV V)
    (skipreadonly : Bool) : MutationOutcome V × Bool :=
  if n.valuenode.isNone then ({ node := n, vetoAsked := [], changeEvents := [] }, true)
  else if (skipreadonly && n.readonly) || n.isRoot then
    ({ node := n, vetoAsked := [], changeEvents := [] }, false)
  else if n.canHaveClones then ({ node := n, vetoAsked := [], changeEvents := [] }, false)
  else if ctrl.onBeforeChange none then
    ({ node := { n with valuenode := none }, vetoAsked := [none], changeEvents := ["value"] }, true)
  else ({ node := n, vetoAsked := [none], changeEvents := [] }, false)

/-- `Node.getValue` (lines 698-711): the typed value loaded from the value
node, or - when absent and `usedefault` is set - the default store's value. -/
def NodeV.getValue {V : Type} (n : NodeV V) (usedefault : Bool) : Option V :=
  match n.valuenode with
  | some v => some v
  | none => if usedefault then n.defaultValue else none

/-- `Node.setValue` (lines 740-759).  A `None` proposal delegates to
`clearValue` and returns Python `None` (modelled as `none`).  Otherwise: no-op
returning `False` when the proposal equals the current value; else consult the
interfaces, and only when allowed materialize the value node
(`createValueNode`), write the value (`value.save`) and emit `onChange`. -/
def NodeV.setValue {V : Type} [DecidableEq V] (ctrl : Controller V) (n : NodeV V)
    (value : Option V) : MutationOutcome V × Option Bool :=
  match value with
  | none =>
    let r := n.clearValue ctrl false
    (r.1, none)
  | some v =>
    let curval := n.getValue false
    if curval = some v then
      ({ node := n, vetoAsked := [], changeEvents := [] }, some false)
    else if ctrl.onBeforeChange (some v) then
      ({ node := { n with valuenode := some v }, vetoAsked := [some v],
         changeEvents := ["value"] }, some true)
    else ({ node := n, vetoAsked := [some v], changeEvents := [] }, some false)

/-! ### Condition evaluation: `TypedStore.checkCondition`
(`xmlstore.py` lines 1899-1960).

The `source` attribute (delegation to a named cross-store scope) is not
modelled; we embed conditions evaluated against their own store, i.e. with an
empty `source`.  The condition's literal `value` attribute is kept as a raw
string and parsed with the target node's own type (`fromXmlString`) only after
the target's value has been found, mirroring the order of the source. -/

/-- A schema `condition` element: `type` is one of `eq`, `ne`, `and`, `or`;
`eq`/`ne` carry the `variable` path and the literal `value` string, `and`/`or`
carry their child conditions in document order. -/
inductive Condition where
  | eq (varAttr : String) (value : String)
  | ne (varAttr : String) (value : String)
  | and (children : List Condition)
  | or (children : List Condition)

/-- `TypedStore.checkCondition`: `getvalue p` is the current-or-default value
of the target node at path `p` (`node.getValue(usedefault=True)`), and
`parse p lit` is `fromXmlString` of the literal using that node's own type.
For `eq`/`ne`, a target without a resolvable value makes the condition succeed;
`and`/`or` fold over their children in document order with short-circuiting. -/
def checkCondition {V : Type} [DecidableEq V] (getvalue : String → Option V)
    (parse : String → String → V) : Condition → Bool
  | .eq varAttr lit =>
    match getvalue varAttr with
    | none => true
    | some cur => decide (cur = parse varAttr lit)
  | .ne varAttr lit =>
    match getvalue varAttr with
    | none => true
    | some cur => decide (cur ≠ parse varAttr lit)
  | .and children => children.attach.all (fun c => checkCondition getvalue parse c.1)
  | .or children => children.attach.any (fun c => checkCondition getvalue parse c.1)
termination_by c => c
decreasing_by
  all_goals
    have : sizeOf c.1 < sizeOf children := List.sizeOf_lt_of_mem c.2
    simp only [Condition.and.sizeOf_spec, Condition.or.sizeOf_spec]
    omega

/-! ### Node construction cardinality: `Node.__init__` (`xmlstore.py` lines 629-655).

For each schema child element, `Node.__init__` collects the matching value
entries by name (`curvaluechildren`), enforces `minOccurs`/`maxOccurs`, and
creates one child `Node` per resulting entry; a `None` entry produces an empty
placeholder node. -/

/-- Result of processing one schema child element during construction. -/
structure ChildSlotsResult (α : Type) where
  /-- Value slots from which child `Node`s are created; `none` slots are the
  empty placeholders appended up to `minOccurs`. -/
  slots : List (Option α)
  /-- Value entries removed from the value tree
  (`self.valueroot.removeChild(vch)` for `vch` in `curvaluechildren[maxoccurs:]`). -/
  removed : List α
  /-- Whether the excess-children diagnostic was printed. -/
  diagnostic : Bool

/-- `Node.__init__` lines 638-655 for one schema child: when more entries than
a finite `maxOccurs` exist, print a diagnostic and remove the excess from the
value tree (note the source keeps iterating the full entry list when creating
child nodes); when fewer entries than `minOccurs` exist, append `None`
placeholders up to `minOccurs`.  `maxoccurs = none` models `unbounded`. -/
def buildChildSlots {α : Type} (entries : List α) (minoccurs : Nat)
    (maxoccurs : Option Nat) : ChildSlotsResult α :=
  let over := match maxoccurs with
    | some m => decide (entries.length > m)
    | none => false
  { slots := entries.map some ++ List.replicate (minoccurs - entries.length) none
    removed := if over then entries.drop (maxoccurs.getD 0) else []
    diagnostic := over }

/-! ### Dependent-node visibility batch: `TypedStore.updateDependantNodes`
(`xmlstore.py` lines 2454-2485). -/

/-- A dependent node as the batch construction sees it: an identity and the
node's current `visible` flag. -/
structure DepNode where
  id : Nat
  visible : Bool
deriving DecidableEq, Repr

/-- The processing order built by `updateDependantNodes` for the
`visibility`-type dependants (`deps` lists them in document order of the
`dependentvariable` entries): a currently visible node is appended
(`depnodes.append(varnode)`), a currently hidden one is prepended
(`depnodes.insert(0, varnode)`); `updateVisibility` then runs over the nodes
in this order. -/
def orderDependants (deps : List DepNode) : List DepNode :=
  deps.foldl (fun depnodes d => if d.visible then depnodes ++ [d] else d :: depnodes) []

/-! ### Validation of bounded numerics: `TypedStore.validate` / `TypedStore._validate`
(`xmlstore.py` lines 1990-2002 and 2004-2098).

We embed the passes exercised by plain scalar nodes: the classification loop
(lines 2017-2032), the empty-node pass (lines 2034-2038) and the two
numeric-bounds passes (lines 2076-2098).  The `select`-options pass and the
declarative `validation/test` rules apply only to nodes with `hasoptions` or
to schemas with a `validation` section and are not exercised by the nodes
modelled here.  Numeric values are integers; a node's `value` field is its
`getValue(usedefault)` result.  The repairs write through `Node.setValue`
with no attached interface, so the write is allowed and commits. -/

/-- A node as the validation engine reads it. -/
structure VNode where
  /-- `node.getText(1)`, the text used in error messages. -/
  name : String
  /-- `node.canHaveValue()`. -/
  canHaveValue : Bool
  /-- `node.getValue(usedefault)`. -/
  value : Option Int
  /-- The parsed `minInclusive` template attribute, when present. -/
  minInclusive : Option Int
  /-- The parsed `maxInclusive` template attribute, when present. -/
  maxInclusive : Option Int
  /-- `node.isHidden()`. -/
  hidden : Bool
deriving DecidableEq, Repr

/-- A validation error, structured after the `_validate` format strings. -/
inductive VError where
  | notSet (name : String)
  | belowMin (name : String) (value lo : Int)
  | aboveMax (name : String) (value hi : Int)
deriving DecidableEq, Repr

/-- The lower-bound check for one node (lines 2077-2087): when the value lies
below `minInclusive`, repair levels 2 (always) and 1 (hidden nodes only) snap
the value to the minimum; otherwise a below-minimum error is reported. -/
def checkLower (repair : Nat) (n : VNode) : VNode × Option VError :=
  match n.canHaveValue, n.minInclusive, n.value with
  | true, some lo, some v =>
    if v < lo then
      if repair == 2 || (repair == 1 && n.hidden) then ({ n with value := some lo }, none)
      else (n, some (.belowMin n.name v lo))
    else (n, none)
  | _, _, _ => (n, none)

/-- The upper-bound check for one node (lines 2088-2098): when the value lies
above `maxInclusive`, repair levels 2 (always) and 1 (hidden nodes only) snap
the value to the maximum; otherwise an above-maximum error is reported. -/
def checkUpper (repair : Nat) (n : VNode) : VNode × Option VError :=
  match n.canHaveValue, n.maxInclusive, n.value with
  | true, some hi, some v =>
    if hi < v then
      if repair == 2 || (repair == 1 && n.hidden) then ({ n with value := some hi }, none)
      else (n, some (.aboveMax n.name v hi))
    else (n, none)
  | _, _, _ => (n, none)

/-- `TypedStore._validate` over plain scalar nodes: the empty-node errors,
then the lower-bound pass over every node, then the upper-bound pass (whose
re-read of `getValue` sees the lower pass's repairs).  Returns the errors in
emission order together with the nodes' final state. -/
def validatePasses (repair : Nat) (nodes : List VNode) : List VError × List VNode :=
  let emptyErrors := (nodes.filter
      (fun n => n.canHaveValue && n.value.isNone && !n.hidden)).map (fun n => VError.notSet n.name)
  let afterLower := nodes.map (checkLower repair)
  let nodes1 := afterLower.map (fun p => p.1)
  let lowerErrors := afterLower.filterMap (fun p => p.2)
  let afterUpper := nodes1.map (checkUpper repair)
  let nodes2 := afterUpper.map (fun p => p.1)
  let upperErrors := afterUpper.filterMap (fun p => p.2)
  (emptyErrors ++ lowerErrors ++ upperErrors, nodes2)

/-- `TypedStore.validate` (lines 1990-2002): runs `_validate` and returns its
list of errors (the validation-history update does not alter the errors). -/
def validate (repair : Nat) (nodes : List VNode) : List VError :=
  (validatePasses repair nodes).1

/-- The concrete node of C8: numeric bounds `[0, 10]`, value set to `50`. -/
def boundedNode : VNode :=
  { name := "x", canHaveValue := true, value := some 50,
    minInclusive := some 0, maxInclusive := some 10, hidden := false }

/-! ### Path resolution: `Node.getLocation` / `Node.__getitem__`
(`xmlstore.py` lines 1122-1167).

A node's `location` is the tuple of names from the root (`Node.__init__`:
the root is created with location `[]`, each child with
`parent.location + [childname]`; clone siblings all share the same location).
`__getitem__(path)` resolves `path.split('/')` via `getLocation`; joining a
location with `'/'` and splitting again restores the component list because
XML element names cannot contain `/`.  We embed `getLocation` directly on the
component list, identify live nodes by their index path from the root, and
model `createoptional=False` (the claim's read-only resolution). -/

/-- A value-tree node for path resolution: the last component of its
`location` (its name), the `id` attribute of its value root (its secondary
id, empty when unset), and its children in order. -/
inductive VTree where
  | node (name : String) (secid : String) (children : List VTree)

/-- Name of a node. -/
def VTree.name : VTree → String
  | .node nm _ _ => nm

/-- Secondary id of a node (`Node.getSecondaryId`). -/
def VTree.secid : VTree → String
  | .node _ s _ => s

/-- Children of a node. -/
def VTree.children : VTree → List VTree
  | .node _ _ cs => cs

/-- The node reached from `t` by the index path `p`. -/
def VTree.subtree : VTree → List Nat → Option VTree
  | t, [] => some t
  | t, i :: p =>
    match t.children[i]? with
    | some c => c.subtree p
    | none => none

/-- The names along the index path `p` (the `location` of the node at `p`
relative to `t`), when `p` is valid. -/
def VTree.namesAlong : VTree → List Nat → Option (List String)
  | _, [] => some []
  | t, i :: p =>
    match t.children[i]? with
    | some c => (c.namesAlong p).map (fun ns => c.name :: ns)
    | none => none

/-- A parsed bracketed suffix: a 0-based occurrence index or a secondary id. -/
inductive SecSel where
  | byIndex (i : Nat)
  | byName (s : String)
deriving DecidableEq, Repr

/-- Per-component parsing of the bracketed suffix (lines 1134-1142): when the
component ends with `]` and contains `[`, the text between the last `[`
(`childname.rfind`) and the final `]` is the selector - stripped of single
quotes when quoted, an occurrence index when all digits, otherwise a
secondary-id string. -/
def parseComponent (c : String) : String × Option SecSel :=
  let cs := c.toList
  if cs.getLast? = some ']' && cs.contains '[' then
    let istart := cs.length - 1 - cs.reverse.indexOf '['
    let childname := (cs.take istart).asString
    let inner := (cs.drop (istart + 1)).dropLast
    let quote := Char.ofNat 39
    if inner.head? = some quote && inner.getLast? = some quote then
      (childname, some (.byName ((inner.drop 1).dropLast.asString)))
    else if inner ≠ [] && inner.all Char.isDigit then
      (childname, some (.byIndex (inner.asString.toNat?.getD 0)))
    else (childname, some (.byName inner.asString))
  else (c, none)

/-- The child-scan of one lookup step (lines 1149-1156): walk the children
from position `pos`; among children whose name matches, the running occurrence
counter is `ich`; select the first child for which no selector was given, or
whose occurrence index / secondary id matches the selector.  Returns the
selected child's position. -/
def findChild : List VTree → String → Option SecSel → Nat → Nat → Option Nat
  | [], _, _, _, _ => none
  | c :: rest, childname, sec, pos, ich =>
    if c.name = childname then
      match sec with
      | none => some pos
      | some (.byIndex i) =>
        if i = ich then some pos else findChild rest childname sec (pos + 1) (ich + 1)
      | some (.byName s) =>
        if s = c.secid then some pos else findChild rest childname sec (pos + 1) (ich + 1)
    else findChild rest childname sec (pos + 1) ich

/-- `Node.getLocation` with `createoptional=False`: resolve the component list
starting from the node at index path `cur` below the root `t`.  `..` moves up
one level (the source asserts a parent exists), empty and `.` components are
skipped, any unresolved component yields `none`. -/
def getLocation (t : VTree) (cur : List Nat) : List String → Option (List Nat)
  | [] => some cur
  | comp :: rest =>
    let parsed := parseComponent comp
    if parsed.1 = ".." then
      if cur = [] then none
      else getLocation t cur.dropLast rest
    else if parsed.1 = "" ∨ parsed.1 = "." then getLocation t cur rest
    else
      match t.subtree cur with
      | none => none
      | some sub =>
        match findChild sub.children parsed.1 parsed.2 0 0 with
        | some i => getLocation t (cur ++ [i]) rest
        | none => none

/-- An XML element name as it appears in a schema: nonempty, free of `[`
(so no bracket suffix is parsed off it) and distinct from the `.`/`..`
navigation markers.  (XML names also cannot contain `/`, which is what makes
`'/'.join` followed by `split('/')` the identity on locations.) -/
def SaneName (n : String) : Prop :=
  ¬n.toList.contains '[' = true ∧ n ≠ "" ∧ n ≠ "." ∧ n ≠ ".."

/-- The index path `p` selects, at every step, a child none of whose earlier
siblings carries the same name.  Every non-clone node satisfies this (schema
names are unique among siblings); among clone siblings only the first does. -/
def VTree.firstOfItsName : VTree → List Nat → Prop
  | _, [] => True
  | t, i :: p => ∃ c, t.children[i]? = some c
      ∧ (∀ j, j < i → ∀ cj, t.children[j]? = some cj → cj.name ≠ c.name)
      ∧ c.firstOfItsName p

/-- The concrete tree for the C9 counterexample: a root with two clone
siblings named `x`, the second carrying secondary id `a`. -/
def cloneTree : VTree :=
  .node "root" "" [.node "x" "" [], .node "x" "a" []]

/-! ### Version conversion router: `SchemaInfo.getConverter` /
`SchemaInfo.findIndirectConversion` (`xmlstore.py` lines 2576-2617).

The converter registry (`getConverters()`) maps a source version to the
dictionary of target versions it can convert to directly; we model it as the
list of its `(source, target)` edges (dictionary keys are unique and iterate
in insertion order).  Converter objects are represented symbolically:
`direct a b` is an instance of the class registered for that edge, and
`chain steps` is `versioning.ConvertorChain` over the direct converters of
the listed edges (the source builds the chain from
`getConverter(route[istep], route[istep+1], directonly=True)`, the direct
converter of each consecutive route pair). -/

/-- A converter as returned by `getConverter`. -/
inductive Convertor where
  | direct (source target : String)
  | chain (steps : List (String × String))
deriving DecidableEq, Repr

/-- Modelled from the spec: `versioning.ConvertorChain` (the `versioning`
module is not among the sources) applies each direct converter in sequence,
each step's output becoming the next step's input; `sem a b` is the store
transformation performed by the direct converter registered for `(a, b)`. -/
def Convertor.apply {S : Type} (sem : String → String → S → S) : Convertor → S → S
  | .direct a b, store => sem a b store
  | .chain steps, store => steps.foldl (fun acc e => sem e.1 e.2 acc) store

/-- The target versions directly reachable from `sourceid`:
`self.getConverters().get(sourceid, {}).keys()` in registration order. -/
def successors (reg : List (String × String)) (sourceid : String) : List String :=
  (reg.filter (fun e => e.1 == sourceid)).map Prod.snd

/-- `SchemaInfo.findIndirectConversion` (lines 2601-2617): depth-first
enumeration of conversion routes from `sourceid` to `targetid`.  Each level
extends `disallowed` with its own source (`curdisallowed`), skips successors
already on the current path, records `[sourceid, curnext]` when a successor
is the target, and otherwise prefixes `sourceid` to every route found from
the successor.  The extension of `disallowed` is what guarantees termination
on cyclic registries; the measure is the number of registered target versions
not yet excluded. -/
def findIndirectConversion (reg : List (String × String)) (sourceid targetid : String)
    (disallowed : List String) : List (List String) :=
  ((successors reg sourceid).attach.map (fun cn =>
    if h1 : cn.1 ∈ disallowed ++ [sourceid] then []
    else if h2 : cn.1 = targetid then [[sourceid, cn.1]]
    else (findIndirectConversion reg cn.1 targetid (disallowed ++ [sourceid])).map
      (fun cr => sourceid :: cr))).flatten
termination_by ((reg.map Prod.snd).toFinset \ insert sourceid disallowed.toFinset).card
decreasing_by
  apply Finset.card_lt_card
  have hA : cn.1 ∈ (reg.map Prod.snd).toFinset := by
    rw [List.mem_toFinset]
    have := cn.2
    simp only [successors] at this
    obtain ⟨e, he, hsnd⟩ := List.mem_map.mp this
    exact hsnd ▸ List.mem_map_of_mem Prod.snd (List.mem_of_mem_filter he)
  have hBsub : insert sourceid disallowed.toFinset
      ⊆ insert cn.1 (disallowed ++ [sourceid]).toFinset := by
    intro x hx
    rcases Finset.mem_insert.mp hx with hx | hx
    · exact Finset.mem_insert_of_mem (by simp [hx])
    · exact Finset.mem_insert_of_mem (by simp [List.mem_toFinset.mp hx])
  have hnotB : cn.1 ∉ insert sourceid disallowed.toFinset := by
    intro hx
    apply h1
    rcases Finset.mem_insert.mp hx with hx | hx
    · simp [hx]
    · simp [List.mem_toFinset.mp hx]
  rw [Finset.ssubset_iff_of_subset (Finset.sdiff_subset_sdiff (le_refl _) hBsub)]
  exact ⟨cn.1, Finset.mem_sdiff.mpr ⟨hA, hnotB⟩,
    fun hc => (Finset.mem_sdiff.mp hc).2 (Finset.mem_insert_self _ _)⟩

/-- `indirectroutes.sort(key=len)` followed by taking element 0: Python's
sort is stable, so this picks the first route of minimal length. -/
def pickShortest : List (List String) → Option (List String)
  | [] => none
  | r :: rest =>
    some (rest.foldl (fun best cur => if cur.length < best.length then cur else best) r)

/-- `SchemaInfo.getConverter` (lines 2576-2599): try the direct registry entry
first; otherwise, unless `directonly`, enumerate the indirect routes, pick the
shortest (`sort(key=len)` then element 0) and compose the direct converters of
its consecutive steps into a chain. -/
def getConverter (reg : List (String × String)) (sourceid targetid : String)
    (directonly : Bool) : Option Convertor :=
  if (sourceid, targetid) ∈ reg then some (.direct sourceid targetid)
  else if directonly then none
  else
    match pickShortest (findIndirectConversion reg sourceid targetid []) with
    | some route => some (.chain (route.zip route.tail))
    | none => none

/-- The routes enumerated by `findIndirectConversion`, characterized
recursively: the source followed by an edge path to the target on which
each next version avoids `disallowed` and every version passed earlier, and
the target is reached only at the end. -/
inductive RouteVia (reg : List (String × String)) (targetid : String) :
    String → List String → List String → Prop
  | direct {sourceid disallowed} :
      (sourceid, targetid) ∈ reg → targetid ∉ disallowed ++ [sourceid] →
      RouteVia reg targetid sourceid disallowed [sourceid, targetid]
  | step {sourceid disallowed nextid r} :
      (sourceid, nextid) ∈ reg → nextid ∉ disallowed ++ [sourceid] → nextid ≠ targetid →
      RouteVia reg targetid nextid (disallowed ++ [sourceid]) r →
      RouteVia reg targetid sourceid disallowed (sourceid :: r)

/-- A simple path through the registry graph: consecutive elements are
registered direct conversions, it starts at the source, ends at the target,
repeats no version, and has at least one hop. -/
def IsSimpleRoute (reg : List (String × String)) (sourceid targetid : String)
    (r : List String) : Prop :=
  r.Chain' (fun a b => (a, b) ∈ reg) ∧ r.head? = some sourceid
    ∧ r.getLast? = some targetid ∧ r.Nodup ∧ 2 ≤ r.length

end XmlStore

namespace XmlStore

/-- C10: the child count reported by `getChildCount` equals the length of the
list returned by `getChildren`, for every node and every interface
configuration (any combination of `showhidden` and `omitgroupers`). -/
theorem claim_C10_childCount_eq_children_length (iface : Interface) (node : ITree) :
    iface.getChildCount node = (iface.getChildren node).length := by
  rw [Interface.getChildCount, Interface.getChildren, List.length_flatten, List.map_map]
  refine congrArg List.sum ?_
  refine List.map_congr_left (fun c hc => ?_)
  simp only [Function.comp]
  by_cases hvis : c.1.visible || iface.showhidden
  · simp only [hvis, if_true]
    by_cases hg : iface.isGrouper c.1
    · simp only [hg, if_true]
      exact claim_C10_childCount_eq_children_length iface c.1
    · simp [hg]
  · simp [hvis]
termination_by node
decreasing_by
  cases node with
  | node v g cs =>
    have : sizeOf c.1 < sizeOf cs := List.sizeOf_lt_of_mem (by simpa [ITree.children] using c.2)
    simp only [ITree.node.sizeOf_spec]
    omega

/-- On a value slice, `getValue` without default is exactly the value node. -/
theorem NodeV.getValue_false {V : Type} (n : NodeV V) : n.getValue false = n.valuenode := by
  unfold NodeV.getValue
  cases n.valuenode <;> simp

/-- If some attached interface denies a proposed value, `onBeforeChange` denies it. -/
theorem Controller.onBeforeChange_eq_false {V : Type} (ctrl : Controller V)
    (newvalue : Option V) (hdeny : ∃ f ∈ ctrl.interfaces, f newvalue = false) :
    ctrl.onBeforeChange newvalue = false := by
  obtain ⟨f, hf, hval⟩ := hdeny
  rw [Controller.onBeforeChange, Bool.eq_false_iff]
  intro hall
  rw [List.all_eq_true] at hall
  exact absurd (hall f hf) (by simp [hval])

/-- C1: for a node with a value type and a value `v` accepted by that type,
after `setValue(v)` a `getValue()` returns `v`; unless the attached
interfaces' `beforeChange` veto denies the change, in which case the node's
state (in particular its value) is unchanged. -/
theorem claim_C1_set_get_consistency {V : Type} [DecidableEq V]
    (ctrl : Controller V) (n : NodeV V) (v : V) :
    (ctrl.onBeforeChange (some v) = true →
      (n.setValue ctrl (some v)).1.node.getValue false = some v)
  ∧ (ctrl.onBeforeChange (some v) = false →
      (n.setValue ctrl (some v)).1.node = n) := by
  constructor <;> intro h <;> by_cases hc : n.valuenode = some v
  · simp [NodeV.setValue, NodeV.getValue_false, hc]
  · simp [NodeV.setValue, NodeV.getValue_false, hc, h]
  · simp [NodeV.setValue, NodeV.getValue_false, hc]
  · simp [NodeV.setValue, NodeV.getValue_false, hc, h]

/-- Witness for C1 at a concrete instance: no interface is attached, so the
change is allowed and the written value is read back. -/
theorem claim_C1_witness :
    (Controller.onBeforeChange { interfaces := [] } (some (5 : Nat)) = true)
  ∧ ((NodeV.setValue { interfaces := [] } ⟨none, false, false, false, none⟩
        (some (5 : Nat))).1.node.getValue false = some 5) :=
  ⟨rfl, (claim_C1_set_get_consistency { interfaces := [] }
    ⟨none, false, false, false, none⟩ 5).1 rfl⟩

/-- C4: if an attached interface's `beforeChange` handler denies the proposed
mutation, `setValue` leaves the node's state unchanged, emits no `afterChange`
event, and its return value does not report a change (it is Python `False`, or
`None` on the clear path - never `True`); being a total function, the
embedding also shows no exception is raised on this path. -/
theorem claim_C4_veto_denial {V : Type} [DecidableEq V] (ctrl : Controller V)
    (n : NodeV V) (newvalue : Option V)
    (hdeny : ∃ f ∈ ctrl.interfaces, f newvalue = false) :
    (n.setValue ctrl newvalue).1.node = n
  ∧ (n.setValue ctrl newvalue).1.changeEvents = []
  ∧ (n.setValue ctrl newvalue).2 ≠ some true := by
  have hb := ctrl.onBeforeChange_eq_false newvalue hdeny
  cases newvalue with
  | none =>
    simp only [NodeV.setValue, NodeV.clearValue, hb]
    split_ifs <;> simp_all
  | some v =>
    by_cases hc : n.valuenode = some v
    · simp [NodeV.setValue, NodeV.getValue_false, hc]
    · simp [NodeV.setValue, NodeV.getValue_false, hc, hb]

/-- Witness for C4 at a concrete instance: one attached interface denies every
change; the proposal `7` on a node holding `3` is rejected with no effect. -/
theorem claim_C4_witness :
    ((NodeV.setValue { interfaces := [fun _ => false] }
        ⟨some (3 : Nat), false, false, false, none⟩ (some 7)).1.node
      = ⟨some 3, false, false, false, none⟩)
  ∧ ((NodeV.setValue { interfaces := [fun _ => false] }
        ⟨some (3 : Nat), false, false, false, none⟩ (some 7)).1.changeEvents = [])
  ∧ ((NodeV.setValue { interfaces := [fun _ => false] }
        ⟨some (3 : Nat), false, false, false, none⟩ (some 7)).2 ≠ some true) :=
  claim_C4_veto_denial { interfaces := [fun _ => false] }
    ⟨some 3, false, false, false, none⟩ (some 7)
    ⟨fun _ => false, List.mem_singleton.mpr rfl, rfl⟩

/-- C5: `setValue(v)` with `v` equal to the current value is a no-op: it
returns `False`, leaves the node unchanged, consults no veto and fires no
change event.  Moreover, for any value proposal, the returned flag reports
exactly whether the stored value actually changed. -/
theorem claim_C5_noop_and_change_report {V : Type} [DecidableEq V]
    (ctrl : Controller V) (n : NodeV V) (v : V) :
    (n.valuenode = some v →
       (n.setValue ctrl (some v)).2 = some false
     ∧ (n.setValue ctrl (some v)).1.node = n
     ∧ (n.setValue ctrl (some v)).1.vetoAsked = []
     ∧ (n.setValue ctrl (some v)).1.changeEvents = [])
  ∧ (n.setValue ctrl (some v)).2
      = some (decide (¬(n.setValue ctrl (some v)).1.node.valuenode = n.valuenode)) := by
  by_cases hc : n.valuenode = some v
  · simp [NodeV.setValue, NodeV.getValue_false, hc]
  · refine ⟨fun h => absurd h hc, ?_⟩
    by_cases hb : ctrl.onBeforeChange (some v) = true
    · simp [NodeV.setValue, NodeV.getValue_false, hc, hb, Ne.symm hc]
    · rw [Bool.not_eq_true] at hb
      simp [NodeV.setValue, NodeV.getValue_false, hc, hb]

/-- Witness for C5 at a concrete instance: setting the current value `3` again
is a no-op returning `False` with no veto request and no event. -/
theorem claim_C5_witness :
    ((⟨some (3 : Nat), false, false, false, none⟩ : NodeV Nat).valuenode = some 3)
  ∧ ((NodeV.setValue { interfaces := [] }
        ⟨some (3 : Nat), false, false, false, none⟩ (some 3)).2 = some false
   ∧ (NodeV.setValue { interfaces := [] }
        ⟨some (3 : Nat), false, false, false, none⟩ (some 3)).1.node
      = ⟨some 3, false, false, false, none⟩
   ∧ (NodeV.setValue { interfaces := [] }
        ⟨some (3 : Nat), false, false, false, none⟩ (some 3)).1.vetoAsked = []
   ∧ (NodeV.setValue { interfaces := [] }
        ⟨some (3 : Nat), false, false, false, none⟩ (some 3)).1.changeEvents = []) :=
  ⟨rfl, (claim_C5_noop_and_change_report { interfaces := [] }
    ⟨some 3, false, false, false, none⟩ 3).1 rfl⟩

/-- C2: an `eq` or `ne` condition whose target node has no resolvable value
(its current-or-default value is empty) evaluates as satisfied (`true`),
rather than indeterminate or false. -/
theorem claim_C2_condition_failopen {V : Type} [DecidableEq V]
    (getvalue : String → Option V) (parse : String → String → V)
    (c : Condition) (varAttr lit : String)
    (hc : c = .eq varAttr lit ∨ c = .ne varAttr lit)
    (hval : getvalue varAttr = none) :
    checkCondition getvalue parse c = true := by
  rcases hc with hc | hc <;> subst hc <;> simp [checkCondition, hval]

/-- Witness for C2 at a concrete instance: an `eq` condition on a target with
no value evaluates to `true`. -/
theorem claim_C2_witness :
    ((fun _ => (none : Option Nat)) "x" = none)
  ∧ (checkCondition (fun _ => (none : Option Nat)) (fun _ _ => 0)
      (.eq "x" "1") = true) :=
  ⟨rfl, claim_C2_condition_failopen (fun _ => none) (fun _ _ => 0)
    (.eq "x" "1") "x" "1" (Or.inl rfl) rfl⟩

/-- C6: when the matching value entries number fewer than `minOccurs`, empty
placeholder slots are appended so that exactly `minOccurs` children exist, the
placeholders numbering `minOccurs - entries` (hence never more than
`minOccurs`); when the entries exceed a finite `maxOccurs`, the entries beyond
`maxOccurs` are removed from the value tree and the diagnostic is printed. -/
theorem claim_C6_cardinality {α : Type} [DecidableEq α] (entries : List α)
    (minoccurs : Nat) (maxoccurs : Option Nat) :
    (entries.length < minoccurs →
        (buildChildSlots entries minoccurs maxoccurs).slots.length = minoccurs
      ∧ (buildChildSlots entries minoccurs maxoccurs).slots.count none
          = minoccurs - entries.length)
  ∧ minoccurs - entries.length ≤ minoccurs
  ∧ (∀ m, maxoccurs = some m → m < entries.length →
        (buildChildSlots entries minoccurs maxoccurs).removed = entries.drop m
      ∧ (buildChildSlots entries minoccurs maxoccurs).diagnostic = true) := by
  refine ⟨fun hlt => ⟨?_, ?_⟩, Nat.sub_le _ _, fun m hm hgt => ?_⟩
  · simp [buildChildSlots]
    omega
  · have hnone : (entries.map some).count (none : Option α) = 0 := by
      rw [List.count_eq_zero]
      simp
    simp [buildChildSlots, List.count_append, hnone]
  · subst hm
    simp [buildChildSlots, hgt]

/-- Witness for C6: three entries against `minOccurs = 5` give five slots with
two placeholders; three entries against `maxOccurs = 2` drop the third entry
with a diagnostic. -/
theorem claim_C6_witness :
    (([1, 2, 3] : List Nat).length < 5
   ∧ (buildChildSlots ([1, 2, 3] : List Nat) 5 none).slots.length = 5
   ∧ (buildChildSlots ([1, 2, 3] : List Nat) 5 none).slots.count none = 2)
  ∧ ((2 : Nat) < ([1, 2, 3] : List Nat).length
   ∧ (buildChildSlots ([1, 2, 3] : List Nat) 0 (some 2)).removed = [3]
   ∧ (buildChildSlots ([1, 2, 3] : List Nat) 0 (some 2)).diagnostic = true) := by
  have h1 := (claim_C6_cardinality ([1, 2, 3] : List Nat) 5 none).1 (by decide)
  have h2 := (claim_C6_cardinality ([1, 2, 3] : List Nat) 0 (some 2)).2.2 2 rfl (by decide)
  exact ⟨⟨by decide, h1.1, h1.2⟩, ⟨by decide, by simpa using h2.1, h2.2⟩⟩

/-- The batch order is the hidden dependants (in reverse document order)
followed by the visible dependants (in document order); generalized over the
fold accumulator. -/
theorem orderDependants_aux (deps : List DepNode) (acc : List DepNode) :
    deps.foldl (fun depnodes d => if d.visible then depnodes ++ [d] else d :: depnodes) acc
      = (deps.filter (fun d => !d.visible)).reverse ++ acc
          ++ deps.filter (fun d => d.visible) := by
  induction deps generalizing acc with
  | nil => simp
  | cons d rest ih =>
    by_cases hd : d.visible = true
    · simp only [List.foldl_cons, hd, if_true, List.filter_cons, hd]
      rw [ih]
      simp
    · rw [Bool.not_eq_true] at hd
      simp only [List.foldl_cons, hd, Bool.false_eq_true, if_false, List.filter_cons, hd]
      rw [ih]
      simp

/-- C7: the visibility-recomputation batch processes exactly the dependent
nodes (a permutation of them), with every currently-hidden dependant placed
before every currently-visible one: the order is the hidden dependants
followed by the visible dependants. -/
theorem claim_C7_hidden_before_visible (deps : List DepNode) :
    (orderDependants deps).Perm deps
  ∧ orderDependants deps
      = (deps.filter (fun d => !d.visible)).reverse
          ++ deps.filter (fun d => d.visible) := by
  have heq : orderDependants deps
      = (deps.filter (fun d => !d.visible)).reverse
          ++ deps.filter (fun d => d.visible) := by
    rw [orderDependants, orderDependants_aux]
    simp
  refine ⟨?_, heq⟩
  rw [heq]
  have p1 : ((deps.filter (fun d => !d.visible)).reverse
        ++ deps.filter (fun d => d.visible)).Perm
      (deps.filter (fun d => !d.visible) ++ deps.filter (fun d => d.visible)) :=
    (List.reverse_perm _).append_right _
  have p2 : (deps.filter (fun d => !d.visible) ++ deps.filter (fun d => d.visible)).Perm
      (deps.filter (fun d => d.visible) ++ deps.filter (fun d => !d.visible)) :=
    List.perm_append_comm
  have p3 : (deps.filter (fun d => d.visible) ++ deps.filter (fun d => !d.visible)).Perm deps := by
    simpa using List.filter_append_perm (fun d => d.visible) deps
  exact p1.trans (p2.trans p3)

/-- Membership in the successor list is exactly a registered direct edge. -/
theorem mem_successors (reg : List (String × String)) (s a : String) :
    a ∈ successors reg s ↔ (s, a) ∈ reg := by
  simp only [successors, List.mem_map, List.mem_filter]
  constructor
  · rintro ⟨⟨e1, e2⟩, ⟨he, heq⟩, rfl⟩
    have h1 : e1 = s := by simpa using heq
    simpa [h1] using he
  · intro h
    exact ⟨(s, a), ⟨h, by simp⟩, rfl⟩

/-- Moving to an unexcluded successor strictly shrinks the set of registered
target versions not yet excluded (the termination measure of
`findIndirectConversion`). -/
theorem conv_measure_lt (reg : List (String × String)) (s a : String) (dis : List String)
    (ha : a ∈ successors reg s) (hnot : a ∉ dis ++ [s]) :
    ((reg.map Prod.snd).toFinset \ insert a (dis ++ [s]).toFinset).card
      < ((reg.map Prod.snd).toFinset \ insert s dis.toFinset).card := by
  apply Finset.card_lt_card
  have hA : a ∈ (reg.map Prod.snd).toFinset := by
    rw [List.mem_toFinset]
    simp only [successors, List.mem_map, List.mem_filter] at ha
    obtain ⟨e, ⟨he, -⟩, hsnd⟩ := ha
    exact hsnd ▸ List.mem_map_of_mem Prod.snd he
  have hBsub : insert s dis.toFinset ⊆ insert a (dis ++ [s]).toFinset := by
    intro x hx
    rcases Finset.mem_insert.mp hx with hx | hx
    · exact Finset.mem_insert_of_mem (by simp [hx])
    · exact Finset.mem_insert_of_mem (by simp [List.mem_toFinset.mp hx])
  have hnotB : a ∉ insert s dis.toFinset := by
    intro hx
    apply hnot
    rcases Finset.mem_insert.mp hx with hx | hx
    · simp [hx]
    · simp [List.mem_toFinset.mp hx]
  rw [Finset.ssubset_iff_of_subset (Finset.sdiff_subset_sdiff (le_refl _) hBsub)]
  exact ⟨a, Finset.mem_sdiff.mpr ⟨hA, hnotB⟩,
    fun hc => (Finset.mem_sdiff.mp hc).2 (Finset.mem_insert_self _ _)⟩

/-- Membership in the flattening of a map over an attached list. -/
theorem mem_flatten_attach {α β : Type} (l : List α) (f : {x // x ∈ l} → List β) (b : β) :
    b ∈ (l.attach.map f).flatten ↔ ∃ a, ∃ h : a ∈ l, b ∈ f ⟨a, h⟩ := by
  rw [List.mem_flatten]
  constructor
  · rintro ⟨y, hy, hb⟩
    obtain ⟨⟨a, ha⟩, -, rfl⟩ := List.mem_map.mp hy
    exact ⟨a, ha, hb⟩
  · rintro ⟨a, ha, hb⟩
    exact ⟨f ⟨a, ha⟩, List.mem_map_of_mem f (List.mem_attach l ⟨a, ha⟩), hb⟩

/-- The routes returned by `findIndirectConversion` are exactly the `RouteVia`
routes (strong induction on the termination measure). -/
theorem mem_findIndirect_bounded (reg : List (String × String)) (targetid : String) :
    ∀ (N : Nat) (sourceid : String) (disallowed : List String),
      ((reg.map Prod.snd).toFinset \ insert sourceid disallowed.toFinset).card ≤ N →
      ∀ r, (r ∈ findIndirectConversion reg sourceid targetid disallowed
        ↔ RouteVia reg targetid sourceid disallowed r) := by
  intro N
  induction N using Nat.strong_induction_on with
  | _ N ih =>
    intro s dis hcard r
    rw [findIndirectConversion, mem_flatten_attach]
    constructor
    · rintro ⟨a, ha, hb⟩
      by_cases h1 : a ∈ dis ++ [s]
      · rw [dif_pos h1] at hb
        cases hb
      · rw [dif_neg h1] at hb
        by_cases h2 : a = targetid
        · rw [dif_pos h2] at hb
          have hr : r = [s, a] := by simpa using hb
          subst hr
          subst h2
          exact RouteVia.direct ((mem_successors reg s a).mp ha) h1
        · rw [dif_neg h2] at hb
          obtain ⟨r', hr', rfl⟩ := List.mem_map.mp hb
          have hmlt := conv_measure_lt reg s a dis ha h1
          have hrec := (ih _ (lt_of_lt_of_le hmlt hcard) a (dis ++ [s]) (le_refl _) r').mp hr'
          exact RouteVia.step ((mem_successors reg s a).mp ha) h1 h2 hrec
    · intro hroute
      cases hroute with
      | direct hedge hnotin =>
        refine ⟨targetid, (mem_successors reg s targetid).mpr hedge, ?_⟩
        rw [dif_neg hnotin, dif_pos rfl]
        simp
      | step hedge hnotin hne hrec =>
        rename_i nextid r0
        refine ⟨nextid, (mem_successors reg s nextid).mpr hedge, ?_⟩
        rw [dif_neg hnotin, dif_neg hne]
        have hmlt := conv_measure_lt reg s nextid dis
          ((mem_successors reg s nextid).mpr hedge) hnotin
        exact List.mem_map.mpr ⟨r0, (ih _ (lt_of_lt_of_le hmlt hcard) nextid (dis ++ [s])
          (le_refl _) r0).mpr hrec, rfl⟩

/-- The route characterization, at the measure itself. -/
theorem mem_findIndirect (reg : List (String × String)) (targetid sourceid : String)
    (disallowed : List String) (r : List String) :
    r ∈ findIndirectConversion reg sourceid targetid disallowed
      ↔ RouteVia reg targetid sourceid disallowed r :=
  mem_findIndirect_bounded reg targetid _ sourceid disallowed (le_refl _) r

/-- Every `RouteVia` route is the source followed by a nonempty edge path
ending at the target, without repetitions and avoiding `disallowed`. -/
theorem routeVia_spec {reg : List (String × String)} {targetid : String} :
    ∀ {sourceid : String} {disallowed r : List String},
      RouteVia reg targetid sourceid disallowed r →
      ∃ rest, r = sourceid :: rest ∧ rest ≠ []
        ∧ List.Chain (fun a b => (a, b) ∈ reg) sourceid rest
        ∧ rest.getLast? = some targetid
        ∧ (sourceid :: rest).Nodup
        ∧ ∀ v ∈ rest, v ∉ disallowed := by
  intro s dis r h
  induction h with
  | @direct s dis hedge hnotin =>
    have hnot : targetid ∉ dis ∧ targetid ≠ s := by simpa using hnotin
    refine ⟨[targetid], rfl, by simp, List.Chain.cons hedge List.Chain.nil, by simp, ?_, ?_⟩
    · simp [List.nodup_cons, Ne.symm hnot.2]
    · intro v hv
      rw [List.mem_singleton] at hv
      subst hv
      exact hnot.1
  | @step s dis nextid r0 hedge hnotin hne hrec ih =>
    have hnot : nextid ∉ dis ∧ nextid ≠ s := by simpa using hnotin
    obtain ⟨rest0, rfl, hne0, hchain, hlast, hnodup, havoid⟩ := ih
    have havoid' : ∀ v ∈ rest0, v ∉ dis ∧ v ≠ s := by
      intro v hv
      simpa using havoid v hv
    refine ⟨nextid :: rest0, rfl, by simp, List.Chain.cons hedge hchain, ?_, ?_, ?_⟩
    · cases rest0 with
      | nil => exact absurd rfl hne0
      | cons x xs => simpa [List.getLast?_cons_cons] using hlast
    · rw [List.nodup_cons]
      refine ⟨?_, hnodup⟩
      rw [List.mem_cons]
      rintro (h | h)
      · exact hnot.2 h.symm
      · exact (havoid' s h).2 rfl
    · intro v hv
      rw [List.mem_cons] at hv
      rcases hv with hv | hv
      · exact hv ▸ hnot.1
      · exact (havoid' v hv).1

/-- Conversely, every nonempty repetition-free edge path to the target that
avoids `disallowed` is a `RouteVia` route. -/
theorem routeVia_of_spec {reg : List (String × String)} {targetid : String} :
    ∀ (rest : List String) (sourceid : String) (disallowed : List String),
      rest ≠ [] →
      List.Chain (fun a b => (a, b) ∈ reg) sourceid rest →
      rest.getLast? = some targetid →
      (sourceid :: rest).Nodup →
      (∀ v ∈ rest, v ∉ disallowed) →
      RouteVia reg targetid sourceid disallowed (sourceid :: rest) := by
  intro rest
  induction rest with
  | nil => intro s dis h; exact absurd rfl h
  | cons n rest0 ih =>
    intro s dis _ hchain hlast hnodup havoid
    rw [List.chain_cons] at hchain
    obtain ⟨hedge, hchain0⟩ := hchain
    have hn_ne_s : n ≠ s := by
      rw [List.nodup_cons] at hnodup
      intro h
      exact hnodup.1 (h ▸ List.mem_cons_self _ _)
    have hn_notin : n ∉ dis ++ [s] := by
      simp [havoid n (List.mem_cons_self _ _), hn_ne_s]
    cases rest0 with
    | nil =>
      have hn : n = targetid := by simpa using hlast
      subst hn
      exact RouteVia.direct hedge hn_notin
    | cons m rest1 =>
      have hlast' : (m :: rest1).getLast? = some targetid := by
        simpa [List.getLast?_cons_cons] using hlast
      have hs_notin_tail : s ∉ n :: m :: rest1 := (List.nodup_cons.mp hnodup).1
      have hnodup_tail : (n :: m :: rest1).Nodup := (List.nodup_cons.mp hnodup).2
      have hne : n ≠ targetid := by
        intro h
        have htmem : targetid ∈ m :: rest1 := by
          have h2 := List.mem_getLast?_eq_getLast (l := m :: rest1) (x := targetid)
            (by rw [hlast']; rfl)
          obtain ⟨hne', heq⟩ := h2
          exact heq ▸ List.getLast_mem hne'
        exact (List.nodup_cons.mp hnodup_tail).1 (by rw [h]; exact htmem)
      refine RouteVia.step hedge hn_notin hne ?_
      apply ih n (dis ++ [s]) (by simp) hchain0 hlast' hnodup_tail
      intro v hv
      have hvs : v ≠ s := by
        intro h
        exact hs_notin_tail (h ▸ List.mem_cons_of_mem n hv)
      simp [havoid v (List.mem_cons_of_mem n hv), hvs]

/-- With nothing disallowed, `RouteVia` routes are exactly the simple routes. -/
theorem routeVia_nil_iff_simple (reg : List (String × String)) (s t : String)
    (r : List String) :
    RouteVia reg t s [] r ↔ IsSimpleRoute reg s t r := by
  constructor
  · intro h
    obtain ⟨rest, rfl, hne, hchain, hlast, hnodup, -⟩ := routeVia_spec h
    refine ⟨hchain, rfl, ?_, hnodup, ?_⟩
    · cases rest with
      | nil => exact absurd rfl hne
      | cons x xs => simpa [List.getLast?_cons_cons] using hlast
    · have := List.length_pos.mpr hne
      simp only [List.length_cons]
      omega
  · rintro ⟨hchain, hhead, hlast, hnodup, hlen⟩
    cases r with
    | nil => cases hhead
    | cons a rest =>
      have ha : a = s := by simpa using hhead
      subst ha
      have hne : rest ≠ [] := by
        intro h
        subst h
        simp at hlen
      refine routeVia_of_spec rest a [] hne hchain ?_ hnodup (by simp)
      cases rest with
      | nil => exact absurd rfl hne
      | cons x xs => simpa [List.getLast?_cons_cons] using hlast

/-- The running minimum taken by `pickShortest`: the fold returns the initial
candidate or a list element, and its length is minimal among both. -/
theorem foldl_min_spec :
    ∀ (rest : List (List String)) (best : List String),
      (rest.foldl (fun b c => if c.length < b.length then c else b) best = best
        ∨ rest.foldl (fun b c => if c.length < b.length then c else b) best ∈ rest)
      ∧ (rest.foldl (fun b c => if c.length < b.length then c else b) best).length
          ≤ best.length
      ∧ ∀ x ∈ rest,
          (rest.foldl (fun b c => if c.length < b.length then c else b) best).length
            ≤ x.length := by
  intro rest
  induction rest with
  | nil => simp
  | cons c rest0 ih =>
    intro best
    simp only [List.foldl_cons]
    by_cases hc : c.length < best.length
    · rw [if_pos hc]
      obtain ⟨hmem, hle, hall⟩ := ih c
      refine ⟨?_, le_trans hle (le_of_lt hc), ?_⟩
      · rcases hmem with h | h
        · exact Or.inr (by rw [h]; exact List.mem_cons_self _ _)
        · exact Or.inr (List.mem_cons_of_mem _ h)
      · intro x hx
        rcases List.mem_cons.mp hx with hx | hx
        · exact hx ▸ hle
        · exact hall x hx
    · rw [if_neg hc]
      obtain ⟨hmem, hle, hall⟩ := ih best
      refine ⟨?_, hle, ?_⟩
      · rcases hmem with h | h
        · exact Or.inl h
        · exact Or.inr (List.mem_cons_of_mem _ h)
      · intro x hx
        rcases List.mem_cons.mp hx with hx | hx
        · exact hx ▸ le_trans hle (Nat.not_lt.mp hc)
        · exact hall x hx

/-- The picked route is one of the candidates and has minimal length. -/
theorem pickShortest_spec (rs : List (List String)) (r : List String)
    (h : pickShortest rs = some r) :
    r ∈ rs ∧ ∀ x ∈ rs, r.length ≤ x.length := by
  cases rs with
  | nil => cases h
  | cons r0 rest =>
    rw [pickShortest, Option.some.injEq] at h
    obtain ⟨hmem, hle, hall⟩ := foldl_min_spec rest r0
    subst h
    constructor
    · rcases hmem with h | h
      · exact by rw [h]; exact List.mem_cons_self _ _
      · exact List.mem_cons_of_mem _ h
    · intro x hx
      rcases List.mem_cons.mp hx with hx | hx
      · exact hx ▸ hle
      · exact hall x hx

/-- A nonempty candidate list always yields a pick. -/
theorem pickShortest_ne_nil (rs : List (List String)) (h : rs ≠ []) :
    ∃ r, pickShortest rs = some r := by
  cases rs with
  | nil => exact absurd rfl h
  | cons r0 rest => exact ⟨_, rfl⟩

/-- Extending a valid index path by one child step stays valid and reaches
the child. -/
theorem VTree.subtree_append (t : VTree) (cur : List Nat) (i : Nat) :
    ∀ t' c, t.subtree cur = some t' → t'.children[i]? = some c →
      t.subtree (cur ++ [i]) = some c := by
  induction cur generalizing t with
  | nil =>
    intro t' c h1 h2
    rw [VTree.subtree] at h1
    cases h1
    simp [VTree.subtree, h2]
  | cons j rest ih =>
    intro t' c h1 h2
    rw [VTree.subtree] at h1
    simp only [List.cons_append]
    rw [VTree.subtree]
    cases hc : t.children[j]? with
    | none => rw [hc] at h1; cases h1
    | some tc =>
      rw [hc] at h1
      exact ih tc t' c h1 h2

/-- With no bracket selector, the child scan returns the position of the first
child carrying the requested name. -/
theorem findChild_first (nm : String) :
    ∀ (children : List VTree) (i : Nat) (c : VTree), children[i]? = some c →
      c.name = nm →
      (∀ j, j < i → ∀ cj, children[j]? = some cj → cj.name ≠ nm) →
      ∀ pos, findChild children nm none pos 0 = some (pos + i) := by
  intro children
  induction children with
  | nil => intro i c h; simp at h
  | cons c0 rest ih =>
    intro i c hget hname hfirst pos
    cases i with
    | zero =>
      simp only [List.getElem?_cons_zero, Option.some.injEq] at hget
      subst hget
      rw [findChild, if_pos hname]
      simp
    | succ k =>
      have h0 : c0.name ≠ nm := hfirst 0 (Nat.succ_pos k) c0 (by simp)
      rw [findChild, if_neg h0]
      have := ih k c (by simpa using hget) hname
        (fun j hj cj hcj => hfirst (j + 1) (Nat.succ_lt_succ hj) cj (by simpa using hcj))
        (pos + 1)
      rw [this]
      exact congrArg some (by omega)

/-- A name free of `[` gets no bracket selector parsed off it. -/
theorem parseComponent_sane (n : String) (h : ¬n.toList.contains '[' = true) :
    parseComponent n = (n, none) := by
  have hmem : '[' ∉ n.data := by simpa [String.toList] using h
  rw [parseComponent]
  simp [hmem]

/-- Resolution of the location names below any starting node: when every
component is a sane XML name and every step selects the first child of its
name, `getLocation` walks back to exactly the node the location came from. -/
theorem getLocation_firstOfItsName (t : VTree) :
    ∀ (p cur : List Nat) (t' : VTree) (names : List String),
      t.subtree cur = some t' →
      t'.namesAlong p = some names →
      (∀ n ∈ names, SaneName n) →
      t'.firstOfItsName p →
      getLocation t cur names = some (cur ++ p) := by
  intro p
  induction p with
  | nil =>
    intro cur t' names _ hnames _ _
    rw [VTree.namesAlong] at hnames
    cases hnames
    simp [getLocation]
  | cons i p ih =>
    intro cur t' names hsub hnames hsane hfirst
    obtain ⟨c, hcfirst, huniq, hrec⟩ := hfirst
    rw [VTree.namesAlong] at hnames
    simp only [hcfirst] at hnames
    cases hrest : c.namesAlong p with
    | none => rw [hrest] at hnames; cases hnames
    | some rest =>
      rw [hrest] at hnames
      have hnames' : names = c.name :: rest := by simpa using hnames.symm
      subst hnames'
      have hsanehd : SaneName c.name := hsane c.name (List.mem_cons_self _ _)
      have hsanetl : ∀ n ∈ rest, SaneName n := fun n hn => hsane n (List.mem_cons_of_mem _ hn)
      obtain ⟨hbr, hne, hnd, hndd⟩ := hsanehd
      rw [getLocation]
      simp only [parseComponent_sane c.name hbr]
      rw [if_neg hndd, if_neg (by push_neg; exact ⟨hne, hnd⟩)]
      simp only [hsub]
      have hfc : findChild t'.children c.name none 0 0 = some (0 + i) :=
        findChild_first c.name t'.children i c hcfirst rfl
          (fun j hj cj hcj => huniq j hj cj hcj) 0
      rw [Nat.zero_add] at hfc
      simp only [hfc]
      have := ih (cur ++ [i]) c rest
        (VTree.subtree_append t cur i t' c hsub hcfirst) hrest hsanetl hrec
      rw [this]
      simp

/-- C9 counterexample to the round trip as stated: in `cloneTree` the second
clone sibling named `x` is the node at index path `[1]` and its location is
`["x"]` (and `'/'.join` followed by `split('/')` is the identity on this
one-component location), yet resolving `["x"]` from the root yields the node
at `[0]` - the first clone sibling - not the same node. -/
theorem claim_C9_counterexample :
    cloneTree.namesAlong [1] = some ["x"]
  ∧ getLocation cloneTree [] ["x"] = some [0]
  ∧ ([0] : List Nat) ≠ [1] := by
  refine ⟨by decide, by decide, by decide⟩

/-- C9 (amended): for every node currently present in the tree *such that
each step of its path selects a child with no same-named earlier sibling*
(in particular every node whose ancestors and itself are not later clone
siblings), resolving the node's location from the tree root yields exactly
that node; for a clone with a same-named earlier sibling, resolution yields
the first such sibling instead (see the counterexample).  Location components
are XML element names: nonempty, bracket-free, not `.`/`..`. -/
theorem claim_C9_amended_roundtrip (t : VTree) (p : List Nat) (names : List String)
    (hnames : t.namesAlong p = some names)
    (hsane : ∀ n ∈ names, SaneName n)
    (hfirst : t.firstOfItsName p) :
    getLocation t [] names = some p := by
  have := getLocation_firstOfItsName t p [] t names (by rw [VTree.subtree]) hnames hsane hfirst
  simpa using this

/-- Witness for the amended C9: the first clone sibling (index path `[0]`)
does round-trip through its location `["x"]`. -/
theorem claim_C9_witness :
    getLocation cloneTree [] ["x"] = some [0] :=
  claim_C9_amended_roundtrip cloneTree [0] ["x"] (by decide)
    (by
      intro n hn
      simp only [List.mem_singleton] at hn
      subst hn
      exact ⟨by decide, by decide, by decide, by decide⟩)
    ⟨.node "x" "" [], rfl, fun j hj => absurd hj (Nat.not_lt_zero j), trivial⟩

/-- C3: `getConverter` returns the registered direct converter when one
exists; otherwise its depth-first search - which disallows revisiting a
version already passed on the current path, and therefore terminates even on
cyclic registrations (the embedding is total) - collects exactly the simple
paths from source to target, and when at least one exists, the result is the
chain converter over the consecutive direct conversions of a simple path with
the fewest hops (`Convertor.apply` feeds each step's output to the next). -/
theorem claim_C3_converter_routing (reg : List (String × String)) (s t : String) :
    ((s, t) ∈ reg → getConverter reg s t false = some (.direct s t))
  ∧ ((s, t) ∉ reg →
      (∀ r, r ∈ findIndirectConversion reg s t [] ↔ IsSimpleRoute reg s t r)
    ∧ ((∃ r, IsSimpleRoute reg s t r) →
        ∃ r, IsSimpleRoute reg s t r
          ∧ (∀ r2, IsSimpleRoute reg s t r2 → r.length ≤ r2.length)
          ∧ getConverter reg s t false = some (.chain (r.zip r.tail)))) := by
  constructor
  · intro h
    rw [getConverter, if_pos h]
  · intro h
    have hchar : ∀ r, r ∈ findIndirectConversion reg s t [] ↔ IsSimpleRoute reg s t r :=
      fun r => (mem_findIndirect reg t s [] r).trans (routeVia_nil_iff_simple reg s t r)
    refine ⟨hchar, ?_⟩
    rintro ⟨r0, hr0⟩
    have hne : findIndirectConversion reg s t [] ≠ [] := by
      intro hnil
      have hmem := (hchar r0).mpr hr0
      rw [hnil] at hmem
      cases hmem
    obtain ⟨rp, hrp⟩ := pickShortest_ne_nil _ hne
    obtain ⟨hmem, hmin⟩ := pickShortest_spec _ rp hrp
    refine ⟨rp, (hchar rp).mp hmem, fun r2 hr2 => hmin r2 ((hchar r2).mpr hr2), ?_⟩
    rw [getConverter, if_neg h]
    simp only [Bool.false_eq_true, if_false]
    rw [hrp]

/-- Witness for C3 at a concrete instance: with converters registered for
`A -> B` and `B -> C`, the direct request `A -> B` returns the registered
direct converter. -/
theorem claim_C3_witness :
    (("A", "B") ∈ [("A", "B"), ("B", "C")])
  ∧ getConverter [("A", "B"), ("B", "C")] "A" "B" false
      = some (.direct "A" "B") :=
  ⟨by decide,
    (claim_C3_converter_routing [("A", "B"), ("B", "C")] "A" "B").1 (by decide)⟩

/-- C8: for the node bounded by `[0, 10]` with value `50`, `validate` with
`repair = 0` returns exactly one error - the above-maximum error for that node
- and leaves the stored value at `50`; with `repair = 2` it returns no error
and the stored value becomes `10`. -/
theorem claim_C8_validate_repair :
    (validate 0 [boundedNode] = [.aboveMax "x" 50 10]
      ∧ (validatePasses 0 [boundedNode]).2 = [boundedNode])
  ∧ (validate 2 [boundedNode] = []
      ∧ (validatePasses 2 [boundedNode]).2 = [{ boundedNode with value := some 10 }]) := by
  refine ⟨⟨?_, ?_⟩, ⟨?_, ?_⟩⟩ <;> rfl

end XmlStore
